import Mathlib

/-!
Verification development for the DyG-RAG storage-and-retrieval layer.

The repository provides two Python source files:
* `graphrag/base.py` — the data model (`QueryParam`, `TextChunkSchema`,
  `SingleCommunitySchema`) and the three storage abstractions
  (`BaseKVStorage`, `BaseVectorStorage`, `BaseGraphStorage`), whose
  operations are interface stubs (`raise NotImplementedError`);
* `examples/local_BGE_local_LLM.py` — a concrete driver holding the
  LLM cache wrapper `_llm_with_cache` and the `EmbeddingFunc` wrapper.

Concrete code (`_llm_with_cache`, `QueryParam` defaults) is embedded
directly from the source.  Operations that `base.py` only declares are
modelled from the specification document; each such definition carries a
doc comment starting `Modelled from the spec:`.
-/

namespace DyGRAG

/-- A chat message, the Python dict `{"role": ..., "content": ...}`. -/
structure Message where
  role : String
  content : String
deriving DecidableEq, Repr

/-- Python truthiness of `system_prompt : str | None`:
`None` and the empty string are falsy (`if system_prompt:`). -/
def truthyStr : Option String → Bool
  | none => false
  | some s => !(s == "")

/-- Python `history_messages or []`: `None` and the empty list are falsy. -/
def pyOrEmptyList : Option (List Message) → List Message
  | none => []
  | some l => if l.isEmpty then [] else l

/-- The message sequence assembled by `_llm_with_cache`
(`examples/local_BGE_local_LLM.py` lines 157-162):
optional system message (on a truthy `system_prompt`), then the history,
then the final user message carrying the prompt. -/
def buildMsgs (prompt : String) (system_prompt : Option String)
    (history_messages : Option (List Message)) : List Message :=
  (if truthyStr system_prompt then
      [⟨"system", system_prompt.getD ""⟩] else [])
    ++ pyOrEmptyList history_messages
    ++ [⟨"user", prompt⟩]

/-- A cached completion record, the Python dict
`{"return": answer, "model": model}` of `_llm_with_cache`. -/
structure CacheVal where
  ret : String
  model : String
deriving DecidableEq, Repr

/-- The key-value cache state observed through `get_by_id` / `upsert`
(an association list keyed by the args hash). -/
abbrev KVCache := List (String × CacheVal)

/-- `get_by_id`: lookup by key. -/
def getById (kv : KVCache) (id : String) : Option CacheVal :=
  (kv.find? (fun p => p.1 == id)).map (·.2)

/-- `upsert({key: val})` for a single key: last-write-wins per id, keys
unique as in a Python dict (replace in place, else append). -/
def upsertKV : KVCache → String → CacheVal → KVCache
  | [], key, val => [(key, val)]
  | p :: rest, key, val =>
      if p.1 == key then (key, val) :: rest else p :: upsertKV rest key val

/-- The observable outcome of one `_llm_with_cache` call: the returned
answer, the cache state afterwards (`none` when no `hashing_kv` was
given), and the number of completion-service invocations made. -/
structure LLMResult where
  answer : String
  kv : Option KVCache
  calls : Nat
deriving DecidableEq, Repr

/-- `_llm_with_cache` (`examples/local_BGE_local_LLM.py` lines 147-175),
embedded over an abstract args hash (`compute_args_hash` lives in the
repository's `graphrag/_utils`, outside the given sources) and an
abstract completion service `_chat_completion`.  With a cache: on a hash
hit return the cached `"return"` text without calling the service;
otherwise call the service once and store `{"return": answer, "model":
model}` under the hash before returning.  Without a cache: always call
the service. -/
def llmWithCache (hash : String → List Message → String)
    (complete : String → List Message → String)
    (prompt : String) (model : String)
    (system_prompt : Option String)
    (history_messages : Option (List Message))
    (hashing_kv : Option KVCache) : LLMResult :=
  let msgs := buildMsgs prompt system_prompt history_messages
  match hashing_kv with
  | some store =>
      let args_hash := hash model msgs
      match getById store args_hash with
      | some cached => ⟨cached.ret, some store, 0⟩
      | none =>
          let answer := complete model msgs
          ⟨answer, some (upsertKV store args_hash ⟨answer, model⟩), 1⟩
  | none => ⟨complete model msgs, none, 1⟩

/-- The message sequence as the spec words it for claim C9: a system
message first exactly when `system_prompt` is provided (is not `None`),
then the history in order, then the user turn. -/
def msgsPerSpec (prompt : String) (system_prompt : Option String)
    (history_messages : Option (List Message)) : List Message :=
  (match system_prompt with
   | some s => [⟨"system", s⟩]
   | none => [])
    ++ history_messages.getD []
    ++ [⟨"user", prompt⟩]

/-- The message sequence as the spec words it, amended for claim C9: a
system message exactly when `system_prompt` is provided and non-empty. -/
def msgsPerSpecAmended (prompt : String) (system_prompt : Option String)
    (history_messages : Option (List Message)) : List Message :=
  (match system_prompt with
   | some s => if s = "" then [] else [⟨"system", s⟩]
   | none => [])
    ++ history_messages.getD []
    ++ [⟨"user", prompt⟩]

/-- A text-chunk record (`TextChunkSchema` in `graphrag/base.py`). -/
structure TextChunk where
  tokens : Nat
  content : String
  full_doc_id : String
  chunk_order_index : Nat
  doc_title : String
deriving DecidableEq, Repr

/-- Modelled from the spec: the Query Planner budgeting step (the
planner implementation is absent from the given sources; `base.py` only
declares `QueryParam.max_token_for_text_unit`).  Accumulate ranked text
units in order, summing token counts, stopping strictly before exceeding
the budget; a unit is included entirely or not at all. -/
def truncateByTokenBudget : List TextChunk → Nat → List TextChunk
  | [], _ => []
  | c :: rest, budget =>
      if c.tokens ≤ budget then
        c :: truncateByTokenBudget rest (budget - c.tokens)
      else []

/-- An arbitrary structured record held by a key-value store. -/
abbrev KVRec := List (String × String)

/-- Modelled from the spec: an in-memory key-value store state
(`BaseKVStorage` is an interface stub in `base.py`). -/
abbrev KVStore := List (String × KVRec)

/-- `get(id) -> record | absent`. -/
def kvLookup (store : KVStore) (id : String) : Option KVRec :=
  (store.find? (fun p => p.1 == id)).map (·.2)

/-- One-key upsert: replace in place when present, append otherwise. -/
def kvUpsertOne : KVStore → String → KVRec → KVStore
  | [], key, val => [(key, val)]
  | p :: rest, key, val =>
      if p.1 == key then (key, val) :: rest else p :: kvUpsertOne rest key val

/-- Modelled from the spec: `upsert(map of id→record)` merges or
inserts, last-write-wins per id in call order (`BaseKVStorage.upsert` is
a stub in `base.py`). -/
def kvUpsert (store : KVStore) (data : List (String × KVRec)) : KVStore :=
  data.foldl (fun s p => kvUpsertOne s p.1 p.2) store

/-- Modelled from the spec: `filter_new(ids)` returns the subset of the
queried ids absent from the store, as a set
(`BaseKVStorage.filter_keys`, "return un-exist keys", is a stub in
`base.py`). -/
def filterKeys (store : KVStore) (data : List String) : Finset String :=
  (data.filter (fun id => (kvLookup store id).isNone)).toFinset

/-- The Python dict `{"start_time": ..., "end_time": ...}` held by
`QueryParam.time_constraints`. -/
abbrev TCDict := List (String × Option String)

/-- A heap of mutable Python objects: dict cells and list cells; a
reference is an index into the respective pool. -/
structure PyHeap where
  dicts : List TCDict
  lists : List (List String)
deriving DecidableEq, Repr

/-- `QueryParam` (`graphrag/base.py` lines 9-22): scalar fields held by
value, the two mutable fields (`time_constraints`, `entities`) held by
reference into a `PyHeap`, mirroring Python object semantics. -/
structure QueryParam where
  mode : String
  only_need_context : Bool
  response_type : String
  level : Int
  top_k : Int
  et_top_k : Int
  topk1 : Int
  max_token_for_text_unit : Int
  time_constraints : Nat
  entities : Nat
deriving DecidableEq, Repr

/-- The dict produced by the `time_constraints` default factory:
`{"start_time": None, "end_time": None}`. -/
def defaultTimeConstraints : TCDict :=
  [("start_time", none), ("end_time", none)]

/-- `QueryParam()` with no arguments: every scalar takes its dataclass
default, and each `field(default_factory=...)` runs its factory at
construction time, allocating a fresh heap cell for this instance. -/
def mkQueryParam (h : PyHeap) : PyHeap × QueryParam :=
  (⟨h.dicts ++ [defaultTimeConstraints], h.lists ++ [[]]⟩,
   ⟨"dynamic", false, "short and concise answer", 2, 20, 20, 500, 12000,
    h.dicts.length, h.lists.length⟩)

/-- Dereference a `QueryParam`'s `time_constraints` dict. -/
def readTC (h : PyHeap) (p : QueryParam) : Option TCDict :=
  h.dicts[p.time_constraints]?

/-- Mutate a `QueryParam`'s `time_constraints` dict in place. -/
def writeTC (h : PyHeap) (p : QueryParam) (v : TCDict) : PyHeap :=
  { h with dicts := h.dicts.set p.time_constraints v }

/-- Dereference a `QueryParam`'s `entities` list. -/
def readEnt (h : PyHeap) (p : QueryParam) : Option (List String) :=
  h.lists[p.entities]?

/-- Mutate a `QueryParam`'s `entities` list in place. -/
def writeEnt (h : PyHeap) (p : QueryParam) (v : List String) : PyHeap :=
  { h with lists := h.lists.set p.entities v }

/-- A stored vector-index entry: id, embedding vector, metadata. -/
structure VEntry where
  id : String
  emb : List ℚ
  meta : List (String × String)
deriving DecidableEq, Repr

/-- A record passed to `VectorIndex.upsert`: content text, optional
precomputed embedding, metadata. -/
structure UpsertRec where
  content : String
  embedding : Option (List ℚ)
  meta : List (String × String)
deriving DecidableEq, Repr

/-- Modelled from the spec: `VectorIndex.upsert`
(`BaseVectorStorage.upsert` is a stub in `base.py`).  Records are
appended in order; a record with a precomputed embedding is stored with
it, otherwise the embedding service is invoked on the record's
`content`.  The second component counts embedding-service invocations. -/
def vupsert (embedSvc : String → List ℚ) (idx : List VEntry) :
    List (String × UpsertRec) → List VEntry × Nat
  | [] => (idx, 0)
  | r :: rest =>
      let entry : VEntry :=
        match r.2.embedding with
        | some e => ⟨r.1, e, r.2.meta⟩
        | none => ⟨r.1, embedSvc r.2.content, r.2.meta⟩
      let calls : Nat :=
        match r.2.embedding with
        | some _ => 0
        | none => 1
      let next := vupsert embedSvc (idx ++ [entry]) rest
      (next.1, calls + next.2)

/-- Dot product of two rational vectors. -/
def dotQ : List ℚ → List ℚ → ℚ
  | [], _ => 0
  | _, [] => 0
  | a :: as, b :: bs => a * b + dotQ as bs

/-- Modelled from the spec: cosine similarity between the query
embedding and a stored embedding.  The embedding service
(`EmbeddingFunc` in `examples/local_BGE_local_LLM.py`) normalizes its
embeddings (`normalize_embeddings=True`), and on unit vectors cosine
similarity is the dot product. -/
def cosineSim (q e : List ℚ) : ℚ := dotQ q e

/-- Similarity of a position-tagged entry to the query embedding. -/
def simTo (q : List ℚ) (p : Nat × VEntry) : ℚ := cosineSim q p.2.emb

/-- The ranking order on position-tagged entries: strictly higher
similarity first, equal similarity broken by insertion position. -/
def rankRel (q : List ℚ) (x y : Nat × VEntry) : Prop :=
  simTo q y < simTo q x ∨ (simTo q x = simTo q y ∧ x.1 ≤ y.1)

/-- Stable descending insertion: `a` goes before the first element with
similarity not above its own (elements already present stand for
earlier-processed positions in the recursion of `rankFrom`, which feeds
elements right to left). -/
def insertRanked (q : List ℚ) (a : Nat × VEntry) :
    List (Nat × VEntry) → List (Nat × VEntry)
  | [] => [a]
  | b :: bs =>
      if simTo q a < simTo q b then b :: insertRanked q a bs
      else a :: b :: bs

/-- Rank the entries of the index (tagged with insertion positions
starting at `i`) by non-increasing similarity, stably. -/
def rankFrom (q : List ℚ) : Nat → List VEntry → List (Nat × VEntry)
  | _, [] => []
  | i, e :: es => insertRanked q (i, e) (rankFrom q (i + 1) es)

/-- A `query` result row `{id, similarity, metadata}`. -/
structure QueryResult where
  id : String
  similarity : ℚ
  meta : List (String × String)
deriving DecidableEq, Repr

/-- The ranked, position-tagged candidate list cut to `top_k`. -/
def queryRanked (idx : List VEntry) (q : List ℚ) (top_k : Nat) :
    List (Nat × VEntry) :=
  (rankFrom q 0 idx).take top_k

/-- Modelled from the spec: `VectorIndex.query(text, top_k)`
(`BaseVectorStorage.query` is a stub in `base.py`): the stored entries
ranked by descending cosine similarity to the query embedding, ties by
insertion order, cut to `top_k` rows `{id, similarity, metadata}`. -/
def vquery (idx : List VEntry) (q : List ℚ) (top_k : Nat) :
    List QueryResult :=
  (queryRanked idx q top_k).map (fun p => ⟨p.2.id, simTo q p, p.2.meta⟩)

/-- A node or edge attribute map. -/
abbrev Attrs := List (String × String)

/-- Modelled from the spec: an in-memory graph-store state
(`BaseGraphStorage` is an interface stub in `base.py`): nodes and edges
carrying attribute maps, one edge per ordered endpoint pair. -/
structure GraphState where
  nodes : List (String × Attrs)
  edges : List (String × String × Attrs)
deriving DecidableEq, Repr

/-- `has_node`. -/
def hasNode (g : GraphState) (node_id : String) : Bool :=
  (g.nodes.find? (fun p => p.1 == node_id)).isSome

/-- `has_edge`. -/
def hasEdge (g : GraphState) (src tgt : String) : Bool :=
  (g.edges.find? (fun e => e.1 == src && e.2.1 == tgt)).isSome

/-- `get_node`: the attribute map, or absent. -/
def getNode (g : GraphState) (node_id : String) : Option Attrs :=
  (g.nodes.find? (fun p => p.1 == node_id)).map (·.2)

/-- `get_edge`: the attribute map, or absent. -/
def getEdge (g : GraphState) (src tgt : String) : Option Attrs :=
  (g.edges.find? (fun e => e.1 == src && e.2.1 == tgt)).map (·.2.2)

/-- `node_degree`: count of incident edges, both directions. -/
def nodeDegree (g : GraphState) (node_id : String) : Nat :=
  (g.edges.filter (fun e => e.1 == node_id || e.2.1 == node_id)).length

/-- `edge_degree`: sum of the two endpoints' degrees. -/
def edgeDegree (g : GraphState) (src tgt : String) : Nat :=
  nodeDegree g src + nodeDegree g tgt

/-- `get_node_edges`: the endpoint pairs of all edges touching a node. -/
def getNodeEdges (g : GraphState) (node_id : String) :
    List (String × String) :=
  (g.edges.filter (fun e => e.1 == node_id || e.2.1 == node_id)).map
    (fun e => (e.1, e.2.1))

/-- Merge one attribute into a map: last write wins per key. -/
def attrPut : Attrs → String → String → Attrs
  | [], key, val => [(key, val)]
  | p :: rest, key, val =>
      if p.1 == key then (key, val) :: rest else p :: attrPut rest key val

/-- Modelled from the spec: create-or-merge attribute maps, applied
deterministically in call order (last write wins per key). -/
def mergeAttrs (old new : Attrs) : Attrs :=
  new.foldl (fun acc p => attrPut acc p.1 p.2) old

/-- `upsert_node`: create the node or merge the attributes in place. -/
def upsertNode (g : GraphState) (node_id : String) (node_data : Attrs) :
    GraphState :=
  if hasNode g node_id then
    { g with nodes := g.nodes.map (fun p =>
        if p.1 == node_id then (p.1, mergeAttrs p.2 node_data) else p) }
  else
    { g with nodes := g.nodes ++ [(node_id, node_data)] }

/-- Ensure a node exists, creating it with empty attributes if absent
(an edge upsert must implicitly ensure both endpoints exist). -/
def ensureNode (g : GraphState) (node_id : String) : GraphState :=
  if hasNode g node_id then g else { g with nodes := g.nodes ++ [(node_id, [])] }

/-- `upsert_edge`: ensure both endpoints, then create the edge or merge
its attributes in place. -/
def upsertEdge (g : GraphState) (src tgt : String) (edge_data : Attrs) :
    GraphState :=
  let g := ensureNode (ensureNode g src) tgt
  if hasEdge g src tgt then
    { g with edges := g.edges.map (fun e =>
        if e.1 == src && e.2.1 == tgt then (e.1, e.2.1, mergeAttrs e.2.2 edge_data)
        else e) }
  else
    { g with edges := g.edges ++ [(src, tgt, edge_data)] }

/-- `node_degrees_batch` (batched for throughput). -/
def nodeDegreesBatch (g : GraphState) : List String → List Nat
  | [] => []
  | node_id :: rest => nodeDegree g node_id :: nodeDegreesBatch g rest

/-- `edge_degrees_batch`. -/
def edgeDegreesBatch (g : GraphState) :
    List (String × String) → List Nat
  | [] => []
  | e :: rest => edgeDegree g e.1 e.2 :: edgeDegreesBatch g rest

/-- `get_nodes_batch`: a map from each queried id to its attributes (or
absent). -/
def getNodesBatch (g : GraphState) :
    List String → List (String × Option Attrs)
  | [] => []
  | node_id :: rest => (node_id, getNode g node_id) :: getNodesBatch g rest

/-- `get_edges_batch`. -/
def getEdgesBatch (g : GraphState) :
    List (String × String) → List (Option Attrs)
  | [] => []
  | e :: rest => getEdge g e.1 e.2 :: getEdgesBatch g rest

/-- `get_nodes_edges_batch`. -/
def getNodesEdgesBatch (g : GraphState) :
    List String → List (List (String × String))
  | [] => []
  | node_id :: rest => getNodeEdges g node_id :: getNodesEdgesBatch g rest

/-- `upsert_nodes_batch`: the single-node upserts applied in list
order. -/
def upsertNodesBatch : GraphState → List (String × Attrs) → GraphState
  | g, [] => g
  | g, (node_id, data) :: rest => upsertNodesBatch (upsertNode g node_id data) rest

/-- `upsert_edges_batch`: the single-edge upserts applied in list
order. -/
def upsertEdgesBatch : GraphState → List (String × String × Attrs) → GraphState
  | g, [] => g
  | g, (src, tgt, data) :: rest =>
      upsertEdgesBatch (upsertEdge g src tgt data) rest

/-- The node-id set of a graph state. -/
def nodeSet (g : GraphState) : Finset String :=
  (g.nodes.map (·.1)).toFinset

/-- The edge-endpoint set of a graph state. -/
def edgeSet (g : GraphState) : Finset (String × String) :=
  (g.edges.map (fun e => (e.1, e.2.1))).toFinset

/-- The canonical node order used by the clustering engine: node ids
sorted by the fixed lexicographic order on strings, duplicates gone. -/
def canonNodes (g : GraphState) : List String :=
  (nodeSet g).sort (· ≤ ·)

/-- Undirected adjacency consulted only through edge-set membership. -/
def linkedIn (es : Finset (String × String)) (a b : String) : Bool :=
  decide ((a, b) ∈ es) || decide ((b, a) ∈ es)

/-- Add one node to a partial partition: merge every block the node
touches through an edge, in the fixed processing order. -/
def addToComps (es : Finset (String × String))
    (comps : List (List String)) (x : String) : List (List String) :=
  let split := comps.partition (fun c => c.any (fun y => linkedIn es x y))
  (x :: split.1.flatten) :: split.2

/-- Modelled from the spec: the Clustering Engine's partition of the
graph (`BaseGraphStorage.clustering` is a stub in `base.py`).  Nodes are
processed in the canonical sorted id order and edges consulted only
through set membership, so merge-order tie-breaks follow the fixed total
order over ids, never the input iteration order. -/
def clusterGraph (g : GraphState) : List (List String) :=
  (canonNodes g).foldl (addToComps (edgeSet g)) []

/-- A community row of `community_schema()` for the C8 model. -/
structure CommunityS where
  level : Nat
  title : String
  nodes : List String
deriving DecidableEq, Repr

/-- Modelled from the spec: `community_schema()` over the partition the
clustering run persisted; community titles incorporate the random seed
the run was given. -/
def communitySchemaOf (g : GraphState) (seed : Nat) : List CommunityS :=
  (clusterGraph g).enum.map (fun p =>
    ⟨0, "cluster-" ++ toString seed ++ "-" ++ toString p.1, p.2⟩)

/-- Modelled from the spec: a hierarchical clustering outcome as
node-to-cluster paths — each graph node is assigned one cluster title
per level, the level-(ℓ+1) entry refining the node's level-ℓ cluster; a
community is identified by its path of titles (`community_schema` is a
stub in `base.py`). -/
structure ClusterHier where
  numLevels : Nat
  assign : List (String × List String)
deriving DecidableEq, Repr

/-- The community titles occurring at a level: the distinct length-(ℓ+1)
path prefixes. -/
def prefixesAt (h : ClusterHier) (ℓ : Nat) : List (List String) :=
  (h.assign.map (fun a => a.2.take (ℓ + 1))).dedup

/-- The member node set of the level-ℓ community titled `pfx`. -/
def commNodes (h : ClusterHier) (ℓ : Nat) (pfx : List String) :
    Finset String :=
  ((h.assign.filter (fun a => a.2.take (ℓ + 1) == pfx)).map (·.1)).toFinset

/-- The `sub_communities` list of the level-ℓ community titled `pfx`:
the level-(ℓ+1) titles refining it; empty at the deepest level. -/
def subCommunitiesAt (h : ClusterHier) (ℓ : Nat) (pfx : List String) :
    List (List String) :=
  if ℓ + 1 < h.numLevels then
    (prefixesAt h (ℓ + 1)).filter (fun q => q.take (ℓ + 1) == pfx)
  else []

/-- A community row of `community_schema()` for the C4 model. -/
structure CommunityH where
  level : Nat
  title : List String
  nodes : Finset String
  sub_communities : List (List String)
deriving DecidableEq

/-- Modelled from the spec: the full community map of
`community_schema()`: one row per level and title, holding member nodes
and the declared sub-communities. -/
def communitySchemaH (h : ClusterHier) : List CommunityH :=
  (List.range h.numLevels).flatMap (fun ℓ =>
    (prefixesAt h ℓ).map (fun pfx =>
      ⟨ℓ, pfx, commNodes h ℓ pfx, subCommunitiesAt h ℓ pfx⟩))

/-- The union of the member node sets of the communities named in a
community's `sub_communities` list (at the next level down). -/
def unionSubNodes (h : ClusterHier) (c : CommunityH) : Finset String :=
  c.sub_communities.toFinset.biUnion (fun q => commNodes h (c.level + 1) q)

/-- Claim C4 as stated: in the community map, every community at level
L>0 has the union of its declared sub-communities' nodes equal to its
own node set. -/
def hierClaim (h : ClusterHier) : Prop :=
  ∀ c ∈ communitySchemaH h, 0 < c.level → unionSubNodes h c = c.nodes

end DyGRAG

namespace DyGRAG

lemma getById_upsertKV_self (kv : KVCache) (key : String) (val : CacheVal) :
    getById (upsertKV kv key val) key = some val := by
  induction kv with
  | nil => simp [upsertKV, getById]
  | cons p rest ih =>
      by_cases h : (p.1 == key) = true
      · simp [upsertKV, h, getById]
      · have h' : (p.1 == key) = false := by simpa using h
        simpa [upsertKV, h', getById, List.find?] using ih

/-- C1: with a non-`None` `hashing_kv`, a hash hit returns the cached
entry's `"return"` text with zero completion-service calls and an
unchanged store; a miss calls the service exactly once, stores
`{"return": answer, "model": model}` under the hash key (so a lookup of
that key in the resulting store finds it), and returns the answer. -/
theorem llmWithCache_cache_contract
    (hash complete : String → List Message → String)
    (prompt model : String) (sp : Option String)
    (hist : Option (List Message)) (store : KVCache) :
    (∀ c, getById store (hash model (buildMsgs prompt sp hist)) = some c →
      llmWithCache hash complete prompt model sp hist (some store)
        = ⟨c.ret, some store, 0⟩) ∧
    (getById store (hash model (buildMsgs prompt sp hist)) = none →
      llmWithCache hash complete prompt model sp hist (some store)
        = ⟨complete model (buildMsgs prompt sp hist),
            some (upsertKV store (hash model (buildMsgs prompt sp hist))
              ⟨complete model (buildMsgs prompt sp hist), model⟩), 1⟩ ∧
      getById
        (upsertKV store (hash model (buildMsgs prompt sp hist))
          ⟨complete model (buildMsgs prompt sp hist), model⟩)
        (hash model (buildMsgs prompt sp hist))
        = some ⟨complete model (buildMsgs prompt sp hist), model⟩) := by
  constructor
  · intro c hc
    simp [llmWithCache, hc]
  · intro hc
    exact ⟨by simp [llmWithCache, hc], getById_upsertKV_self _ _ _⟩

/-- C1 witness: a concrete hash hit (cached text returned, no call) and a
concrete miss (one call, answer stored under the hash key). -/
theorem llmWithCache_cache_contract_witness :
    llmWithCache (fun _ _ => "k") (fun _ _ => "ans") "p" "m" none none
        (some [("k", ⟨"c0", "m"⟩)])
      = ⟨"c0", some [("k", ⟨"c0", "m"⟩)], 0⟩ ∧
    llmWithCache (fun _ _ => "k") (fun _ _ => "ans") "p" "m" none none
        (some [])
      = ⟨"ans", some [("k", ⟨"ans", "m"⟩)], 1⟩ := by
  exact ⟨(llmWithCache_cache_contract (fun _ _ => "k") (fun _ _ => "ans")
            "p" "m" none none [("k", ⟨"c0", "m"⟩)]).1 ⟨"c0", "m"⟩ rfl,
         ((llmWithCache_cache_contract (fun _ _ => "k") (fun _ _ => "ans")
            "p" "m" none none []).2 rfl).1⟩

/-- C9 counterexample: with `system_prompt` provided but empty
(`some ""`), the code adds no system message (Python truthiness), so the
assembled sequence differs from the spec's "system message iff
provided". -/
theorem buildMsgs_system_iff_provided_cex :
    buildMsgs "p" (some "") none ≠ msgsPerSpec "p" (some "") none := by
  decide

/-- C9 amended: the assembled sequence is a system message exactly when
`system_prompt` is provided and non-empty, then the history messages in
their given order, then exactly one final user message carrying the
prompt. -/
theorem buildMsgs_matches_spec_amended (prompt : String)
    (sp : Option String) (hist : Option (List Message)) :
    buildMsgs prompt sp hist = msgsPerSpecAmended prompt sp hist := by
  cases sp with
  | none =>
      cases hist with
      | none => simp [buildMsgs, msgsPerSpecAmended, truthyStr, pyOrEmptyList]
      | some l =>
          cases l with
          | nil => simp [buildMsgs, msgsPerSpecAmended, truthyStr, pyOrEmptyList]
          | cons a l =>
              simp [buildMsgs, msgsPerSpecAmended, truthyStr, pyOrEmptyList]
  | some s =>
      by_cases hs : s = ""
      · subst hs
        cases hist with
        | none => simp [buildMsgs, msgsPerSpecAmended, truthyStr, pyOrEmptyList]
        | some l =>
            cases l with
            | nil => simp [buildMsgs, msgsPerSpecAmended, truthyStr, pyOrEmptyList]
            | cons a l =>
                simp [buildMsgs, msgsPerSpecAmended, truthyStr, pyOrEmptyList]
      · cases hist with
        | none => simp [buildMsgs, msgsPerSpecAmended, truthyStr, pyOrEmptyList, hs]
        | some l =>
            cases l with
            | nil => simp [buildMsgs, msgsPerSpecAmended, truthyStr, pyOrEmptyList, hs]
            | cons a l =>
                simp [buildMsgs, msgsPerSpecAmended, truthyStr, pyOrEmptyList, hs]

lemma kvLookup_kvUpsertOne_self (s : KVStore) (key : String) (val : KVRec) :
    kvLookup (kvUpsertOne s key val) key = some val := by
  induction s with
  | nil => simp [kvUpsertOne, kvLookup]
  | cons p rest ih =>
      by_cases h : (p.1 == key) = true
      · simp [kvUpsertOne, h, kvLookup]
      · have h' : (p.1 == key) = false := by simpa using h
        simpa [kvUpsertOne, h', kvLookup, List.find?] using ih

lemma kvLookup_kvUpsertOne_ne (s : KVStore) (key k : String) (val : KVRec)
    (hne : k ≠ key) :
    kvLookup (kvUpsertOne s key val) k = kvLookup s k := by
  have hkk : (key == k) = false := by
    simp [Ne.symm hne]
  induction s with
  | nil => simp [kvUpsertOne, kvLookup, List.find?, hkk]
  | cons p rest ih =>
      by_cases h : (p.1 == key) = true
      · have hp : p.1 = key := by simpa using h
        simp [kvUpsertOne, h, kvLookup, List.find?, hkk, hp]
      · have h' : (p.1 == key) = false := by simpa using h
        by_cases hpk : (p.1 == k) = true
        · simp [kvUpsertOne, h', kvLookup, List.find?, hpk]
        · have hpk' : (p.1 == k) = false := by simpa using hpk
          simpa [kvUpsertOne, h', kvLookup, List.find?, hpk'] using ih

lemma kvLookup_kvUpsert_not_mem (s : KVStore) (data : List (String × KVRec))
    (k : String) (hk : k ∉ data.map Prod.fst) :
    kvLookup (kvUpsert s data) k = kvLookup s k := by
  induction data generalizing s with
  | nil => simp [kvUpsert]
  | cons p rest ih =>
      simp only [List.map_cons, List.mem_cons, not_or] at hk
      have hstep : kvUpsert s (p :: rest)
          = kvUpsert (kvUpsertOne s p.1 p.2) rest := rfl
      rw [hstep, ih _ hk.2, kvLookup_kvUpsertOne_ne _ _ _ _ hk.1]

lemma kvLookup_kvUpsert_mem (s : KVStore) (data : List (String × KVRec))
    (k : String) (hk : k ∈ data.map Prod.fst) :
    (kvLookup (kvUpsert s data) k).isSome := by
  induction data generalizing s with
  | nil => simp at hk
  | cons p rest ih =>
      have hstep : kvUpsert s (p :: rest)
          = kvUpsert (kvUpsertOne s p.1 p.2) rest := rfl
      by_cases hmem : k ∈ rest.map Prod.fst
      · rw [hstep]; exact ih _ hmem
      · simp only [List.map_cons, List.mem_cons] at hk
        have hkp : k = p.1 := hk.resolve_right hmem
        rw [hstep, kvLookup_kvUpsert_not_mem _ _ _ hmem, hkp,
          kvLookup_kvUpsertOne_self]
        rfl

/-- C2: the budgeting step never exceeds the token budget — the sum of
token counts of the included text units is at most
`max_token_for_text_unit` — and the included units form a prefix of the
ranked input, so each unit is taken entirely or not at all. -/
theorem truncateByTokenBudget_le_budget (chunks : List TextChunk)
    (max_token_for_text_unit : Nat) :
    ((truncateByTokenBudget chunks max_token_for_text_unit).map
        (·.tokens)).sum ≤ max_token_for_text_unit ∧
    (truncateByTokenBudget chunks max_token_for_text_unit).IsPrefix chunks := by
  induction chunks generalizing max_token_for_text_unit with
  | nil => exact ⟨Nat.zero_le _, List.nil_prefix⟩
  | cons c rest ih =>
      by_cases h : c.tokens ≤ max_token_for_text_unit
      · have hih := ih (max_token_for_text_unit - c.tokens)
        refine ⟨?_, ?_⟩
        · simp only [truncateByTokenBudget, h, if_true, List.map_cons,
            List.sum_cons]
          omega
        · simp only [truncateByTokenBudget, h, if_true]
          obtain ⟨t, ht⟩ := hih.2
          exact ⟨t, by rw [List.cons_append, ht]⟩
      · refine ⟨?_, ?_⟩
        · simp [truncateByTokenBudget, h]
        · simp only [truncateByTokenBudget, h, if_false]
          exact List.nil_prefix

/-- C6: `filter_keys(ids)` is exactly the subset of the queried ids
absent from the store; and after upserting records under exactly those
absent ids, a second `filter_keys` call with the same ids returns the
empty set. -/
theorem filterKeys_contract (store : KVStore) (ids : List String) :
    (∀ x, x ∈ filterKeys store ids ↔ x ∈ ids ∧ kvLookup store x = none) ∧
    ∀ data : List (String × KVRec),
      (data.map Prod.fst).toFinset = filterKeys store ids →
      filterKeys (kvUpsert store data) ids = ∅ := by
  have hmem : ∀ x, x ∈ filterKeys store ids ↔
      x ∈ ids ∧ kvLookup store x = none := by
    intro x
    simp [filterKeys, List.mem_filter, Option.isNone_iff_eq_none]
  refine ⟨hmem, ?_⟩
  intro data hdata
  rw [Finset.eq_empty_iff_forall_not_mem]
  intro x hx
  have hx' : x ∈ ids ∧ kvLookup (kvUpsert store data) x = none := by
    simpa [filterKeys, List.mem_filter, Option.isNone_iff_eq_none] using hx
  by_cases hmemd : x ∈ data.map Prod.fst
  · have hsome := kvLookup_kvUpsert_mem store data x hmemd
    rw [hx'.2] at hsome
    exact absurd hsome (by simp)
  · have habs : kvLookup store x = none := by
      rw [← kvLookup_kvUpsert_not_mem store data x hmemd]
      exact hx'.2
    have hxf : x ∈ filterKeys store ids := (hmem x).mpr ⟨hx'.1, habs⟩
    rw [← hdata] at hxf
    exact hmemd (by simpa using hxf)

/-- C6 witness: over the store `{"a": []}` with ids `["a", "b"]`,
upserting under the absent id `"b"` empties a second `filter_keys`. -/
theorem filterKeys_contract_witness :
    filterKeys (kvUpsert [("a", [])] [("b", [])]) ["a", "b"] = ∅ :=
  (filterKeys_contract [("a", [])] ["a", "b"]).2 [("b", [])] (by decide)

lemma mem_insertRanked {q : List ℚ} {a x : Nat × VEntry}
    {l : List (Nat × VEntry)} :
    x ∈ insertRanked q a l ↔ x = a ∨ x ∈ l := by
  induction l with
  | nil => simp [insertRanked]
  | cons b bs ih =>
      by_cases h : simTo q a < simTo q b
      · simp only [insertRanked, if_pos h, List.mem_cons, ih]
        tauto
      · simp only [insertRanked, if_neg h, List.mem_cons]

lemma perm_insertRanked (q : List ℚ) (a : Nat × VEntry)
    (l : List (Nat × VEntry)) :
    (insertRanked q a l).Perm (a :: l) := by
  induction l with
  | nil => exact List.Perm.refl _
  | cons b bs ih =>
      by_cases h : simTo q a < simTo q b
      · simp only [insertRanked, if_pos h]
        exact (ih.cons b).trans (List.Perm.swap a b bs)
      · simp only [insertRanked, if_neg h]
        exact List.Perm.refl _

lemma perm_rankFrom (q : List ℚ) (es : List VEntry) :
    ∀ i, (rankFrom q i es).Perm (List.enumFrom i es) := by
  induction es with
  | nil => intro i; exact List.Perm.refl _
  | cons e es ih =>
      intro i
      exact (perm_insertRanked q (i, e) (rankFrom q (i + 1) es)).trans
        ((ih (i + 1)).cons (i, e))

lemma rankFrom_idx_ge (q : List ℚ) (es : List VEntry) :
    ∀ i, ∀ p ∈ rankFrom q i es, i ≤ p.1 := by
  induction es with
  | nil => intro i p hp; simp [rankFrom] at hp
  | cons e es ih =>
      intro i p hp
      rcases mem_insertRanked.mp hp with rfl | hmem
      · exact Nat.le_refl _
      · exact Nat.le_of_succ_le (ih (i + 1) p hmem)

lemma insertRanked_pairwise (q : List ℚ) (a : Nat × VEntry)
    (l : List (Nat × VEntry)) (hs : l.Pairwise (rankRel q))
    (hidx : ∀ b ∈ l, a.1 < b.1) :
    (insertRanked q a l).Pairwise (rankRel q) := by
  induction l with
  | nil => simp [insertRanked]
  | cons b bs ih =>
      rw [List.pairwise_cons] at hs
      by_cases h : simTo q a < simTo q b
      · simp only [insertRanked, if_pos h]
        rw [List.pairwise_cons]
        refine ⟨?_, ih hs.2 (fun x hx => hidx x (List.mem_cons_of_mem b hx))⟩
        intro x hx
        rcases mem_insertRanked.mp hx with rfl | hxbs
        · exact Or.inl h
        · exact hs.1 x hxbs
      · simp only [insertRanked, if_neg h]
        rw [List.pairwise_cons]
        refine ⟨?_, List.pairwise_cons.mpr hs⟩
        intro x hx
        have hba : simTo q b ≤ simTo q a := not_lt.mp h
        rcases List.mem_cons.mp hx with rfl | hxbs
        · rcases lt_or_eq_of_le hba with hlt | heq
          · exact Or.inl hlt
          · exact Or.inr ⟨heq.symm, le_of_lt (hidx x (List.mem_cons_self x bs))⟩
        · have hbx := hs.1 x hxbs
          rcases hbx with hlt | ⟨heq, _⟩
          · exact Or.inl (lt_of_lt_of_le hlt hba)
          · rcases lt_or_eq_of_le hba with hlt2 | heq2
            · exact Or.inl (heq ▸ hlt2)
            · exact Or.inr ⟨heq2.symm.trans heq,
                le_of_lt (hidx x (List.mem_cons_of_mem b hxbs))⟩

lemma rankFrom_pairwise (q : List ℚ) (es : List VEntry) :
    ∀ i, (rankFrom q i es).Pairwise (rankRel q) := by
  induction es with
  | nil => intro i; simp [rankFrom]
  | cons e es ih =>
      intro i
      refine insertRanked_pairwise q (i, e) _ (ih (i + 1)) ?_
      intro b hb
      exact Nat.lt_of_succ_le (rankFrom_idx_ge q es (i + 1) b hb)

lemma length_rankFrom (q : List ℚ) (es : List VEntry) (i : Nat) :
    (rankFrom q i es).length = es.length := by
  rw [(perm_rankFrom q es i).length_eq]
  simp

/-- C7: each record given to `VectorIndex.upsert` carrying a precomputed
embedding is stored with that embedding; each record without one is
stored with the embedding service applied to its `content`; and the
service is invoked exactly once per record lacking a precomputed
embedding (so never for records carrying one). -/
theorem vupsert_embedding_dispatch (f : String → List ℚ)
    (idx : List VEntry) (data : List (String × UpsertRec)) :
    (vupsert f idx data).1 = idx ++ data.map (fun r =>
      match r.2.embedding with
      | some e => VEntry.mk r.1 e r.2.meta
      | none => VEntry.mk r.1 (f r.2.content) r.2.meta) ∧
    (vupsert f idx data).2
      = (data.filter (fun r => r.2.embedding.isNone)).length := by
  induction data generalizing idx with
  | nil => simp [vupsert]
  | cons r rest ih =>
      cases hr : r.2.embedding with
      | some e =>
          have := ih (idx ++ [VEntry.mk r.1 e r.2.meta])
          refine ⟨?_, ?_⟩
          · simp only [vupsert, hr, this.1, List.map_cons]
            simp [List.append_assoc]
          · simp only [vupsert, hr, this.2, List.filter_cons]
            simp [hr]
      | none =>
          have := ih (idx ++ [VEntry.mk r.1 (f r.2.content) r.2.meta])
          refine ⟨?_, ?_⟩
          · simp only [vupsert, hr, this.1, List.map_cons]
            simp [List.append_assoc]
          · simp only [vupsert, hr, this.2, List.filter_cons]
            simp [hr]
            omega

/-- C3: `query(q, k)` returns `min k n` results for an index of `n`
entries (at most `k`, fewer exactly when the index holds fewer), the
rows are sorted by non-increasing similarity, the underlying ranked
entries satisfy the full ranking order (descending similarity with
equal-similarity ties broken by insertion position), and the ranking is
a permutation of the position-tagged index contents. -/
theorem vquery_contract (idx : List VEntry) (q : List ℚ) (top_k : Nat) :
    (vquery idx q top_k).length = min top_k idx.length ∧
    (vquery idx q top_k).Pairwise
      (fun x y => y.similarity ≤ x.similarity) ∧
    (queryRanked idx q top_k).Pairwise (rankRel q) ∧
    (rankFrom q 0 idx).Perm idx.enum := by
  have hpw := rankFrom_pairwise q idx 0
  have hpwt : (queryRanked idx q top_k).Pairwise (rankRel q) :=
    List.Pairwise.sublist (List.take_sublist _ _) hpw
  refine ⟨?_, ?_, hpwt, perm_rankFrom q idx 0⟩
  · simp [vquery, queryRanked, List.length_take, length_rankFrom]
  · refine List.Pairwise.map _ ?_ hpwt
    intro a b hab
    rcases hab with hlt | ⟨heq, _⟩
    · exact le_of_lt hlt
    · exact le_of_eq heq.symm

lemma nodeDegreesBatch_eq_map (g : GraphState) (ids : List String) :
    nodeDegreesBatch g ids = ids.map (fun id => nodeDegree g id) := by
  induction ids with
  | nil => rfl
  | cons a l ih => simp [nodeDegreesBatch, ih]

lemma edgeDegreesBatch_eq_map (g : GraphState) (eps : List (String × String)) :
    edgeDegreesBatch g eps = eps.map (fun e => edgeDegree g e.1 e.2) := by
  induction eps with
  | nil => rfl
  | cons a l ih => simp [edgeDegreesBatch, ih]

lemma getNodesBatch_eq_map (g : GraphState) (ids : List String) :
    getNodesBatch g ids = ids.map (fun id => (id, getNode g id)) := by
  induction ids with
  | nil => rfl
  | cons a l ih => simp [getNodesBatch, ih]

lemma getEdgesBatch_eq_map (g : GraphState) (eps : List (String × String)) :
    getEdgesBatch g eps = eps.map (fun e => getEdge g e.1 e.2) := by
  induction eps with
  | nil => rfl
  | cons a l ih => simp [getEdgesBatch, ih]

lemma getNodesEdgesBatch_eq_map (g : GraphState) (ids : List String) :
    getNodesEdgesBatch g ids = ids.map (fun id => getNodeEdges g id) := by
  induction ids with
  | nil => rfl
  | cons a l ih => simp [getNodesEdgesBatch, ih]

lemma upsertNodesBatch_eq_foldl (g : GraphState)
    (data : List (String × Attrs)) :
    upsertNodesBatch g data
      = data.foldl (fun s x => upsertNode s x.1 x.2) g := by
  induction data generalizing g with
  | nil => rfl
  | cons p rest ih => cases p; simp [upsertNodesBatch, ih]

lemma upsertEdgesBatch_eq_foldl (g : GraphState)
    (data : List (String × String × Attrs)) :
    upsertEdgesBatch g data
      = data.foldl (fun s x => upsertEdge s x.1 x.2.1 x.2.2) g := by
  induction data generalizing g with
  | nil => rfl
  | cons p rest ih =>
      obtain ⟨src, tgt, d⟩ := p
      simp [upsertEdgesBatch, ih]

/-- C5: every batched GraphStore operation agrees with issuing the
single-item operation per element in list order: the i-th entry of each
batched query equals the single-item call at the i-th input, and the
batched upserts equal the left fold of the single-item upserts. -/
theorem graph_batch_ops_equiv (g : GraphState) (ids : List String)
    (eps : List (String × String)) (nodesData : List (String × Attrs))
    (edgesData : List (String × String × Attrs)) :
    (∀ i : Nat, (nodeDegreesBatch g ids)[i]?
        = (ids[i]?).map (fun id => nodeDegree g id)) ∧
    (∀ i : Nat, (edgeDegreesBatch g eps)[i]?
        = (eps[i]?).map (fun e => edgeDegree g e.1 e.2)) ∧
    (∀ i : Nat, (getNodesBatch g ids)[i]?
        = (ids[i]?).map (fun id => (id, getNode g id))) ∧
    (∀ i : Nat, (getEdgesBatch g eps)[i]?
        = (eps[i]?).map (fun e => getEdge g e.1 e.2)) ∧
    (∀ i : Nat, (getNodesEdgesBatch g ids)[i]?
        = (ids[i]?).map (fun id => getNodeEdges g id)) ∧
    upsertNodesBatch g nodesData
      = nodesData.foldl (fun s x => upsertNode s x.1 x.2) g ∧
    upsertEdgesBatch g edgesData
      = edgesData.foldl (fun s x => upsertEdge s x.1 x.2.1 x.2.2) g := by
  refine ⟨?_, ?_, ?_, ?_, ?_,
    upsertNodesBatch_eq_foldl g nodesData,
    upsertEdgesBatch_eq_foldl g edgesData⟩
  · intro i; rw [nodeDegreesBatch_eq_map, List.getElem?_map]
  · intro i; rw [edgeDegreesBatch_eq_map, List.getElem?_map]
  · intro i; rw [getNodesBatch_eq_map, List.getElem?_map]
  · intro i; rw [getEdgesBatch_eq_map, List.getElem?_map]
  · intro i; rw [getNodesEdgesBatch_eq_map, List.getElem?_map]

/-- C10: `QueryParam()` takes the dataclass defaults — mode "dynamic",
only_need_context False, response_type "short and concise answer", level
2, top_k 20, et_top_k 20, topk1 500, max_token_for_text_unit 12000,
time_constraints `{"start_time": None, "end_time": None}`, entities `[]`
— and the two `default_factory` fields are freshly allocated per
instance, so mutating either instance's dict/list never changes what the
other instance observes. -/
theorem queryParam_defaults_and_fresh_mutables
    (h0 h1 h2 : PyHeap) (p1 p2 : QueryParam)
    (e1 : mkQueryParam h0 = (h1, p1)) (e2 : mkQueryParam h1 = (h2, p2)) :
    (p1.mode = "dynamic" ∧ p1.only_need_context = false ∧
     p1.response_type = "short and concise answer" ∧ p1.level = 2 ∧
     p1.top_k = 20 ∧ p1.et_top_k = 20 ∧ p1.topk1 = 500 ∧
     p1.max_token_for_text_unit = 12000) ∧
    readTC h2 p1 = some defaultTimeConstraints ∧
    readTC h2 p2 = some defaultTimeConstraints ∧
    readEnt h2 p1 = some [] ∧ readEnt h2 p2 = some [] ∧
    (∀ v, readTC (writeTC h2 p1 v) p2 = readTC h2 p2) ∧
    (∀ v, readTC (writeTC h2 p2 v) p1 = readTC h2 p1) ∧
    (∀ v, readEnt (writeEnt h2 p1 v) p2 = readEnt h2 p2) ∧
    (∀ v, readEnt (writeEnt h2 p2 v) p1 = readEnt h2 p1) := by
  simp only [mkQueryParam, Prod.mk.injEq] at e1 e2
  obtain ⟨rfl, rfl⟩ := e1
  obtain ⟨rfl, rfl⟩ := e2
  refine ⟨⟨rfl, rfl, rfl, rfl, rfl, rfl, rfl, rfl⟩,
    ?_, ?_, ?_, ?_, ?_, ?_, ?_, ?_⟩
  · simp [readTC, List.getElem?_append, List.getElem_append_right]
  · simp [readTC, List.getElem?_append, List.getElem_append_right]
  · simp [readEnt, List.getElem?_append, List.getElem_append_right]
  · simp [readEnt, List.getElem?_append, List.getElem_append_right]
  · intro v
    simp [readTC, writeTC, List.getElem?_set, List.getElem?_append, List.getElem_append_right]
  · intro v
    simp [readTC, writeTC, List.getElem?_set, List.getElem?_append, List.getElem_append_right]
  · intro v
    simp [readEnt, writeEnt, List.getElem?_set, List.getElem?_append, List.getElem_append_right]
  · intro v
    simp [readEnt, writeEnt, List.getElem?_set, List.getElem?_append, List.getElem_append_right]

/-- C10 witness: both constructions from the empty heap, checked
concretely. -/
theorem queryParam_defaults_and_fresh_mutables_witness :
    readTC (mkQueryParam (mkQueryParam ⟨[], []⟩).1).1
        (mkQueryParam ⟨[], []⟩).2 = some defaultTimeConstraints ∧
    ∀ v, readTC
        (writeTC (mkQueryParam (mkQueryParam ⟨[], []⟩).1).1
          (mkQueryParam ⟨[], []⟩).2 v)
        (mkQueryParam (mkQueryParam ⟨[], []⟩).1).2
      = readTC (mkQueryParam (mkQueryParam ⟨[], []⟩).1).1
        (mkQueryParam (mkQueryParam ⟨[], []⟩).1).2 := by
  have h := queryParam_defaults_and_fresh_mutables ⟨[], []⟩
    (mkQueryParam ⟨[], []⟩).1 (mkQueryParam (mkQueryParam ⟨[], []⟩).1).1
    (mkQueryParam ⟨[], []⟩).2 (mkQueryParam (mkQueryParam ⟨[], []⟩).1).2
    rfl rfl
  exact ⟨h.2.1, h.2.2.2.2.2.1⟩

/-- C8: clustering is reproducible — two graph states with the same
node-id set and the same edge set (regardless of list order or
duplication), clustered with the same seed, yield identical
`community_schema()` maps. -/
theorem clustering_deterministic (g1 g2 : GraphState) (seed : Nat)
    (hn : nodeSet g1 = nodeSet g2) (he : edgeSet g1 = edgeSet g2) :
    communitySchemaOf g1 seed = communitySchemaOf g2 seed := by
  unfold communitySchemaOf clusterGraph canonNodes
  rw [hn, he]

/-- C8 witness: the same node/edge set presented in different orders and
with a duplicate edge clusters to the identical schema. -/
theorem clustering_deterministic_witness :
    communitySchemaOf ⟨[("b", []), ("a", [])], [("a", "b", [])]⟩ 7
      = communitySchemaOf
          ⟨[("a", []), ("b", [])],
           [("a", "b", [("w", "1")]), ("a", "b", [])]⟩ 7 :=
  clustering_deterministic _ _ 7 (by decide) (by decide)

/-- C4 counterexample: a two-level hierarchy with one node.  Its level-1
community is at the deepest level, so its `sub_communities` list is
empty and the union over it is empty, differing from its own non-empty
node set — the claim fails for deepest-level communities at L>0. -/
theorem hierClaim_cex : ¬ hierClaim ⟨2, [("a", ["c0", "c1"])]⟩ := by
  unfold hierClaim
  decide

/-- C4 amended: in the community map, every community at level L>0 that
is not at the deepest level (its level+1 still exists in the hierarchy)
has the union of its declared sub-communities' node sets equal to its
own node set. -/
theorem hier_containment_amended (h : ClusterHier) :
    ∀ c ∈ communitySchemaH h, 0 < c.level → c.level + 1 < h.numLevels →
      unionSubNodes h c = c.nodes := by
  intro c hc hpos hlt
  simp only [communitySchemaH, List.mem_flatMap, List.mem_map,
    List.mem_range] at hc
  obtain ⟨ℓ, hℓ, pfx, hpfx, rfl⟩ := hc
  ext x
  simp only [unionSubNodes, List.mem_toFinset, Finset.mem_biUnion]
  constructor
  · rintro ⟨q, hq, hxq⟩
    rw [subCommunitiesAt, if_pos hlt] at hq
    simp only [List.mem_filter] at hq
    have hqpfx : q.take (ℓ + 1) = pfx := by simpa using hq.2
    simp only [commNodes, List.mem_toFinset, List.mem_map,
      List.mem_filter] at hxq ⊢
    obtain ⟨a, ⟨ha, hat⟩, rfl⟩ := hxq
    refine ⟨a, ⟨ha, ?_⟩, rfl⟩
    have hat' : a.2.take (ℓ + 1 + 1) = q := by simpa using hat
    have : a.2.take (ℓ + 1) = pfx := by
      rw [← hqpfx, ← hat', List.take_take]
      congr 1
      omega
    simpa using this
  · intro hx
    simp only [commNodes, List.mem_toFinset, List.mem_map,
      List.mem_filter] at hx
    obtain ⟨a, ⟨ha, hat⟩, rfl⟩ := hx
    have hat' : a.2.take (ℓ + 1) = pfx := by simpa using hat
    refine ⟨a.2.take (ℓ + 1 + 1), ?_, ?_⟩
    · rw [subCommunitiesAt, if_pos hlt]
      simp only [List.mem_filter]
      constructor
      · simp only [prefixesAt, List.mem_dedup, List.mem_map]
        exact ⟨a, ha, rfl⟩
      · have : (a.2.take (ℓ + 1 + 1)).take (ℓ + 1) = pfx := by
          rw [List.take_take]
          rw [show min (ℓ + 1) (ℓ + 1 + 1) = ℓ + 1 from by omega]
          exact hat'
        simpa using this
    · simp only [commNodes, List.mem_toFinset, List.mem_map,
        List.mem_filter]
      exact ⟨a, ⟨ha, by simp⟩, rfl⟩

/-- C4 witness: a three-level hierarchy with two nodes; the level-1
community `["r", "x"]` is not at the deepest level, and the union of its
two sub-communities' nodes equals its own node set. -/
theorem hier_containment_amended_witness :
    unionSubNodes ⟨3, [("a", ["r", "x", "x1"]), ("b", ["r", "x", "x2"])]⟩
        ⟨1, ["r", "x"],
         commNodes ⟨3, [("a", ["r", "x", "x1"]), ("b", ["r", "x", "x2"])]⟩
           1 ["r", "x"],
         subCommunitiesAt
           ⟨3, [("a", ["r", "x", "x1"]), ("b", ["r", "x", "x2"])]⟩
           1 ["r", "x"]⟩
      = commNodes ⟨3, [("a", ["r", "x", "x1"]), ("b", ["r", "x", "x2"])]⟩
          1 ["r", "x"] :=
  hier_containment_amended
    ⟨3, [("a", ["r", "x", "x1"]), ("b", ["r", "x", "x2"])]⟩
    ⟨1, ["r", "x"],
     commNodes ⟨3, [("a", ["r", "x", "x1"]), ("b", ["r", "x", "x2"])]⟩
       1 ["r", "x"],
     subCommunitiesAt
       ⟨3, [("a", ["r", "x", "x1"]), ("b", ["r", "x", "x2"])]⟩
       1 ["r", "x"]⟩
    (by decide) (by decide) (by decide)

end DyGRAG
